import Mathlib

/-!
# Verification of the Quoridor rules engine (`src/quoridor_llm/quoridor.py`)

This file is a shallow embedding of the Quoridor rules engine into Lean 4.
Python classes become Lean structures, in-place mutation becomes explicit
state passing, Python exceptions (`IndexError` from `_wall_canonical_index`,
`AssertionError` from `Edges.set`) become `Option`/`Except` results, and the
`while` loop of the breadth-first search becomes a fuel-indexed recursion,
with the fuel proved sufficient.

All definitions are translated from the source file; the one exception is
the `constants` module, which is not part of the source tree and is modelled
from the spec (see `BOARD_SIZE`).
-/

namespace Quoridor

/-- Modelled from the spec: the repository's `constants` module is not in the
source tree (only `constants.BOARD_SIZE` and `constants.PLAYER_WALL_START_COUNT`
are referenced by `quoridor.py`).  The spec fixes the board dimension `N` at 9
("board size `N` fixed at construction (reference value 9)"). -/
def BOARD_SIZE : Int := 9

/-- Modelled from the spec: each player's starting wall balance is fixed
("each player's starting wall balance fixed (reference value 10)"). -/
def PLAYER_WALL_START_COUNT : Int := 10

/-- `Pos` — the frozen dataclass of an integer `(row, col)` pair. -/
structure Pos where
  row : Int
  col : Int
deriving DecidableEq, Repr

/-- `Pos.__add__`: componentwise vector addition. -/
instance : Add Pos := ⟨fun a b => ⟨a.row + b.row, a.col + b.col⟩⟩

theorem Pos.add_def (a b : Pos) : a + b = ⟨a.row + b.row, a.col + b.col⟩ := rfl

/-- `Pos.__str__`: renders as `(row, col)`. -/
def Pos.str (p : Pos) : String :=
  "(" ++ toString p.row ++ ", " ++ toString p.col ++ ")"

/-- `Player` — a mutable dataclass of a pawn position and remaining walls. -/
structure Player where
  pos : Pos
  wall_balance : Int
deriving DecidableEq, Repr

/-- `Dir` — the four orthogonal directions. -/
inductive Dir where
  | up
  | down
  | left
  | right
deriving DecidableEq, Repr

/-- `Dir.as_pos_delta`: the positional delta of each direction.  Row increases
upward: `UP = (1, 0)`, `DOWN = (-1, 0)`, `LEFT = (0, -1)`, `RIGHT = (0, 1)`. -/
def Dir.as_pos_delta : Dir → Pos
  | .up => ⟨1, 0⟩
  | .down => ⟨-1, 0⟩
  | .left => ⟨0, -1⟩
  | .right => ⟨0, 1⟩

/-- `Dir.__str__`. -/
def Dir.str : Dir → String
  | .up => "up"
  | .down => "down"
  | .left => "left"
  | .right => "right"

/-- `Edges` — flat boolean storage for one orientation of wall bits; index of
cell `(r, c)` is `r * cols + c`, exactly as in the source.  Every read and
write in the engine is guarded by `_wall_canonical_index`, which ensures the
index is in range, so the out-of-range behaviour of the raw list (a Python
`IndexError`, or negative-index wraparound) is never exercised; the embedding
totalizes those unreachable reads with `List.getD`. -/
structure Edges where
  rows : Int
  cols : Int
  cells : List Bool
deriving DecidableEq, Repr

/-- `Edges.__call__`: read the bit of `pos`. -/
def Edges.get (e : Edges) (pos : Pos) : Bool :=
  e.cells.getD (pos.row * e.cols + pos.col).toNat false

/-- `Edges.set`: set the bit of `pos`; the source `assert`s that the bit is not
already set ("Placing a wall on top of another wall"), which the embedding
models by returning `none`. -/
def Edges.set? (e : Edges) (pos : Pos) : Option Edges :=
  let idx := (pos.row * e.cols + pos.col).toNat
  if e.cells.getD idx false then none
  else some { e with cells := e.cells.set idx true }

/-- `GameState` — two players plus the two edge grids (`edges_up` holds top
edges of cells, `edges_right` holds right edges). -/
structure GameState where
  players : Player × Player
  edges_up : Edges
  edges_right : Edges
deriving DecidableEq, Repr

/-- Indexing `self.players[i]` for `i ∈ {0, 1}`. -/
def GameState.player (s : GameState) (i : Fin 2) : Player :=
  if i = 0 then s.players.1 else s.players.2

/-- The in-place update `self.players[i].pos = p`. -/
def GameState.setPlayerPos (s : GameState) (i : Fin 2) (p : Pos) : GameState :=
  if i = 0 then { s with players := ({ s.players.1 with pos := p }, s.players.2) }
  else { s with players := (s.players.1, { s.players.2 with pos := p }) }

/-- The shape asserts of `GameState.__init__` together with the list shape
established by `Edges.__init__` (`[False] * rows * cols`). -/
def GameState.WF (s : GameState) : Prop :=
  s.edges_up.rows = BOARD_SIZE - 1 ∧ s.edges_up.cols = BOARD_SIZE ∧
  s.edges_up.cells.length = (s.edges_up.rows * s.edges_up.cols).toNat ∧
  s.edges_right.rows = BOARD_SIZE ∧ s.edges_right.cols = BOARD_SIZE - 1 ∧
  s.edges_right.cells.length = (s.edges_right.rows * s.edges_right.cols).toNat

instance (s : GameState) : Decidable s.WF :=
  inferInstanceAs (Decidable (s.edges_up.rows = BOARD_SIZE - 1 ∧ s.edges_up.cols = BOARD_SIZE ∧
    s.edges_up.cells.length = (s.edges_up.rows * s.edges_up.cols).toNat ∧
    s.edges_right.rows = BOARD_SIZE ∧ s.edges_right.cols = BOARD_SIZE - 1 ∧
    s.edges_right.cells.length = (s.edges_right.rows * s.edges_right.cols).toNat))

/-- `GameState.new_game`: both edge grids empty, player 0 at
`(0, BOARD_SIZE // 2)`, player 1 at `(BOARD_SIZE - 1, BOARD_SIZE // 2)`, both
holding `PLAYER_WALL_START_COUNT` walls. -/
def new_game : GameState :=
  { players :=
      (⟨⟨0, 4⟩, PLAYER_WALL_START_COUNT⟩, ⟨⟨BOARD_SIZE - 1, 4⟩, PLAYER_WALL_START_COUNT⟩)
    edges_up := ⟨BOARD_SIZE - 1, BOARD_SIZE, List.replicate 72 false⟩
    edges_right := ⟨BOARD_SIZE, BOARD_SIZE - 1, List.replicate 72 false⟩ }

/-- `GameState._is_position_inbounds`. -/
def isPositionInbounds (p : Pos) : Prop :=
  0 ≤ p.row ∧ p.row < BOARD_SIZE ∧ 0 ≤ p.col ∧ p.col < BOARD_SIZE

instance (p : Pos) : Decidable (isPositionInbounds p) :=
  inferInstanceAs (Decidable (0 ≤ p.row ∧ p.row < BOARD_SIZE ∧ 0 ≤ p.col ∧ p.col < BOARD_SIZE))

/-- The two canonical wall orientations.  The source represents them as the
`Dir` values `UP` and `RIGHT` and `assert`s that no other value can occur past
canonicalization; the embedding makes that invariant a type. -/
inductive Orient where
  | up
  | right
deriving DecidableEq, Repr

/-- The canonical `Dir` value carried by the source for an orientation. -/
def Orient.toDir : Orient → Dir
  | .up => Dir.up
  | .right => Dir.right

/-- The pure reference-shift part of `GameState._wall_canonical_index`: `UP`
and `RIGHT` are unchanged, `LEFT` shifts to the left neighbour's `RIGHT` edge,
`DOWN` shifts to the lower neighbour's `UP` edge. -/
def wallCanonicalShift (pos : Pos) (direction : Dir) : Pos × Orient :=
  match direction with
  | .up => (pos, .up)
  | .right => (pos, .right)
  | .left => (pos + Dir.left.as_pos_delta, .right)
  | .down => (pos + Dir.down.as_pos_delta, .up)

/-- The validity checks of `GameState._wall_canonical_index`: the canonical
position must be in bounds, and its row (for `UP`) or column (for `RIGHT`)
must avoid the board border, which stores no wall. -/
def canonicalValid (pc : Pos × Orient) : Prop :=
  isPositionInbounds pc.1 ∧
    match pc.2 with
    | .up => 0 ≤ pc.1.row ∧ pc.1.row < BOARD_SIZE - 1
    | .right => 0 ≤ pc.1.col ∧ pc.1.col < BOARD_SIZE - 1

instance : (pc : Pos × Orient) → Decidable (canonicalValid pc)
  | (p, .up) =>
    inferInstanceAs (Decidable (isPositionInbounds p ∧ 0 ≤ p.row ∧ p.row < BOARD_SIZE - 1))
  | (p, .right) =>
    inferInstanceAs (Decidable (isPositionInbounds p ∧ 0 ≤ p.col ∧ p.col < BOARD_SIZE - 1))

/-- `GameState._wall_canonical_index`: canonicalize, then raise `IndexError`
(modelled as `none`) when the canonical slot falls outside the stored range. -/
def wallCanonicalIndex? (pos : Pos) (direction : Dir) : Option (Pos × Orient) :=
  let pc := wallCanonicalShift pos direction
  if canonicalValid pc then some pc else none

/-- `GameState.wall_exists`: canonicalize (propagating `IndexError` as `none`)
and read the corresponding bit. -/
def wall_exists? (s : GameState) (pos : Pos) (direction : Dir) : Option Bool :=
  match wallCanonicalIndex? pos direction with
  | none => none
  | some (p, .up) => some (s.edges_up.get p)
  | some (p, .right) => some (s.edges_right.get p)

/-- The two failure modes of `GameState.wall_place`: the `IndexError` raised by
`_wall_canonical_index`, and the fatal `AssertionError` of `Edges.set` on a
duplicate bit. -/
inductive PlaceErr where
  | indexError
  | duplicateBit
deriving DecidableEq, Repr

/-- `GameState.wall_place`: canonicalize and set the single corresponding bit;
the duplicate-bit assert of `Edges.set` surfaces as `.error .duplicateBit`. -/
def wall_place (s : GameState) (pos : Pos) (direction : Dir) :
    Except PlaceErr GameState :=
  match wallCanonicalIndex? pos direction with
  | none => .error .indexError
  | some (p, .up) =>
    match s.edges_up.set? p with
    | none => .error .duplicateBit
    | some e => .ok { s with edges_up := e }
  | some (p, .right) =>
    match s.edges_right.set? p with
    | none => .error .duplicateBit
    | some e => .ok { s with edges_right := e }

/-- The set of in-bounds board cells, used to bound the breadth-first search. -/
def boardCells : Finset Pos :=
  (Finset.Icc (0 : Int) (BOARD_SIZE - 1) ×ˢ Finset.Icc (0 : Int) (BOARD_SIZE - 1)).image
    fun rc => ⟨rc.1, rc.2⟩

theorem mem_boardCells (p : Pos) : p ∈ boardCells ↔ isPositionInbounds p := by
  cases p with
  | mk r c =>
    simp only [boardCells, Finset.mem_image, Finset.mem_product, Finset.mem_Icc,
      isPositionInbounds]
    constructor
    · rintro ⟨⟨a, b⟩, ⟨⟨h1, h2⟩, h3, h4⟩, h⟩
      cases h
      exact ⟨h1, by omega, h3, by omega⟩
    · rintro ⟨h1, h2, h3, h4⟩
      exact ⟨(r, c), ⟨⟨h1, by omega⟩, h3, by omega⟩, rfl⟩

/-- One iteration of the neighbour loop of `_can_player_reach_goal`, for a
single direction: the candidate cell is skipped when it is the enemy's cell,
out of bounds, or already visited; otherwise the wall bit toward it is read
(`none` propagates the `IndexError` the source would raise there), and when no
wall blocks, the cell is appended to the queue and marked visited. -/
def visitDir (s : GameState) (enemy pos : Pos) (acc : List Pos × Finset Pos)
    (d : Dir) : Option (List Pos × Finset Pos) :=
  let new_pos := pos + d.as_pos_delta
  if new_pos = enemy then some acc
  else if ¬ isPositionInbounds new_pos then some acc
  else if new_pos ∈ acc.2 then some acc
  else
    match wall_exists? s pos d with
    | none => none
    | some true => some acc
    | some false => some (acc.1 ++ [new_pos], insert new_pos acc.2)

/-- The full neighbour loop `for direction in [UP, DOWN, LEFT, RIGHT]`. -/
def visitAll (s : GameState) (enemy pos : Pos) (acc : List Pos × Finset Pos) :
    Option (List Pos × Finset Pos) :=
  (visitDir s enemy pos acc .up).bind fun a1 =>
    (visitDir s enemy pos a1 .down).bind fun a2 =>
      (visitDir s enemy pos a2 .left).bind fun a3 =>
        visitDir s enemy pos a3 .right

/-- The `while queue:` loop of `_can_player_reach_goal`, as a fuel-indexed
recursion: pop the queue head, succeed when its row is the target row, and
otherwise explore its neighbours.  The source loop needs no fuel; each
iteration either shortens the queue or visits a new in-bounds cell, so
`bfsFuel` iterations always suffice (`bfsAux_spec` proves the fuel is never
exhausted), and the unreachable fuel-0 branch is mapped to the same `none`
that models an uncaught exception. -/
def bfsAux (s : GameState) (enemy : Pos) (target : Int) :
    Nat → List Pos → Finset Pos → Option Bool
  | 0, _, _ => none
  | _ + 1, [], _ => some false
  | fuel + 1, pos :: rest, visited =>
    if pos.row = target then some true
    else
      match visitAll s enemy pos (rest, visited) with
      | none => none
      | some (q, v) => bfsAux s enemy target fuel q v

/-- An upper bound on the iterations of the search loop: one more than the
number of board cells plus one for the initial queue entry. -/
def bfsFuel : Nat := 83

/-- `GameState._can_player_reach_goal`: breadth-first search from the player's
position toward their goal row (`BOARD_SIZE - 1` for player 0, `0` for player
1), treating the opponent's cell as an obstacle. -/
def can_player_reach_goal (s : GameState) (player_idx : Fin 2) : Option Bool :=
  let player_pos := (s.player player_idx).pos
  let enemy_pos := (s.player (1 - player_idx)).pos
  let target_row : Int := if player_idx = 0 then BOARD_SIZE - 1 else 0
  bfsAux s enemy_pos target_row bfsFuel [player_pos] {player_pos}

/-- The error text of the out-of-bounds branch of `move`. -/
def moveOobMsg (cur new_pos : Pos) : String :=
  "attempted to move from " ++ cur.str ++ " to " ++ new_pos.str ++
    ", but cannot move outside the board boundaries"

/-- The error text of the wall-blocked branch of `move`. -/
def moveWallMsg (cur new_pos : Pos) : String :=
  "attempted to move from " ++ cur.str ++ " to " ++ new_pos.str ++
    ", but cannot move through a wall"

/-- The error text of the occupied-cell branch of `move`. -/
def moveOccMsg (cur new_pos : Pos) : String :=
  "attempted to move from " ++ cur.str ++ " to " ++ new_pos.str ++
    ", but cannot move to a cell already occupied by other player"

/-- `GameState.move`: check bounds, then the wall toward the destination, then
collision with the other pawn; on success update the pawn position and report
the win flag exactly as the source does (the source returns `False` with an
empty error on the two win branches and `True` with an empty error otherwise).
`none` models the `IndexError` that `wall_exists` would raise. -/
def move (s : GameState) (player_idx : Fin 2) (direction : Dir) :
    Option (GameState × Bool × String) :=
  let player_pos_cur := (s.player player_idx).pos
  let player_pos_new := player_pos_cur + direction.as_pos_delta
  if ¬ isPositionInbounds player_pos_new then
    some (s, false, moveOobMsg player_pos_cur player_pos_new)
  else
    match wall_exists? s player_pos_cur direction with
    | none => none
    | some true => some (s, false, moveWallMsg player_pos_cur player_pos_new)
    | some false =>
      let enemy_pos := (s.player (1 - player_idx)).pos
      if player_pos_new = enemy_pos then
        some (s, false, moveOccMsg player_pos_cur player_pos_new)
      else
        let s1 := s.setPlayerPos player_idx player_pos_new
        if player_idx = 0 ∧ player_pos_new.row = BOARD_SIZE - 1 then
          some (s1, false, "")
        else if player_idx = 1 ∧ player_pos_new.row = 0 then
          some (s1, false, "")
        else
          some (s1, true, "")

/-- The error text of the caught-`IndexError` branch of
`wall_place_composite`. -/
def invalidCellMsg (cell : Pos) (edge : Dir) : String :=
  "invalid move: the cell " ++ cell.str ++ " cannot have a wall in the `" ++
    edge.str ++ "` edge"

/-- The error text of the horizontal direction-mismatch branch. -/
def horizMismatchMsg : String :=
  "If placing a horizontal edge (top or bottom), the `extends` direction needs to be a horizontal direction since it's a 2-width wall"

/-- The error text of the vertical direction-mismatch branch. -/
def vertMismatchMsg : String :=
  "If placing a vertical edge (left or right), the `extends` direction needs to be a vertical direction since it's a 2-width wall"

/-- The error text of the out-of-board extension branch. -/
def extendsOobMsg : String :=
  "the `extends` direction extends to a cell that's out of the board"

/-- The error text of the overlap branch. -/
def overlapMsg : String :=
  "the placement of this wall would overlap with an existing wall"

/-- The error text of the reachability branch, for the given player. -/
def impossibleMsg (i : Fin 2) : String :=
  "the placement of this wall would make it IMPOSSIBLE for player " ++
    (if i = 0 then "0" else "1") ++ " to win"

/-- `GameState.wall_place_composite`: place a 2-width wall starting from the
`edge` edge of `cell`, extending toward `exts`.  The embedding follows the
source checks in order: canonicalization (a caught `IndexError` returns an
error string), orthogonality of `exts` to the canonical edge, bounds of the
extension cell, overlap of either slot (short-circuit, exactly as the `or` in
the source), and then the reachability trial for both players.  The source
runs the trial by applying both placements to a `copy.deepcopy` of the state
and, when both players can still reach their goal, re-applies the same two
placements to the live state; in a pure embedding the deep copy is the value
itself, so the committed state is the same term `t2` that the trial produced.
`none` models any exception the source would leave uncaught here. -/
def wall_place_composite (s : GameState) (cell : Pos) (edge exts : Dir) :
    Option (GameState × String) :=
  match wallCanonicalIndex? cell edge with
  | none => some (s, invalidCellMsg cell edge)
  | some (cell_can, edge_can) =>
    if edge_can = Orient.up ∧ ¬ (exts = Dir.left ∨ exts = Dir.right) then
      some (s, horizMismatchMsg)
    else if edge_can = Orient.right ∧ ¬ (exts = Dir.up ∨ exts = Dir.down) then
      some (s, vertMismatchMsg)
    else
      let cell_can_extends := cell_can + exts.as_pos_delta
      if ¬ isPositionInbounds cell_can_extends then some (s, extendsOobMsg)
      else
        match wall_exists? s cell_can edge_can.toDir with
        | none => none
        | some true => some (s, overlapMsg)
        | some false =>
          match wall_exists? s cell_can_extends edge_can.toDir with
          | none => none
          | some true => some (s, overlapMsg)
          | some false =>
            match wall_place s cell_can edge_can.toDir with
            | .error _ => none
            | .ok t1 =>
              match wall_place t1 cell_can_extends edge_can.toDir with
              | .error _ => none
              | .ok t2 =>
                match can_player_reach_goal t2 0 with
                | none => none
                | some false => some (s, impossibleMsg 0)
                | some true =>
                  match can_player_reach_goal t2 1 with
                  | none => none
                  | some false => some (s, impossibleMsg 1)
                  | some true => some (t2, "")

/-- The states reachable from `new_game` through `move` calls (successful or
failing — a failing call leaves the state unchanged) and successful
`wall_place_composite` calls. -/
inductive ReachableState : GameState → Prop where
  | init : ReachableState new_game
  | move (s s' : GameState) (i : Fin 2) (d : Dir) (won : Bool) (msg : String) :
      ReachableState s → move s i d = some (s', won, msg) → ReachableState s'
  | wall (s s' : GameState) (cell : Pos) (edge exts : Dir) :
      ReachableState s → wall_place_composite s cell edge exts = some (s', "") →
      ReachableState s'

/-! ## Specification-side definitions for the reachability search -/

/-- One admissible expansion of the search from cell `pos` in direction `d`:
the destination is not the opponent's cell, lies in bounds, and the wall bit
between the two cells is clear.  These are exactly the skip conditions of the
neighbour loop of `_can_player_reach_goal` (visited-set bookkeeping aside). -/
def bfsStepD (s : GameState) (enemy pos : Pos) (d : Dir) : Prop :=
  pos + d.as_pos_delta ≠ enemy ∧ isPositionInbounds (pos + d.as_pos_delta) ∧
    wall_exists? s pos d = some false

/-- The move graph of the reachability check: an edge from `u` to `v` exists
iff `v` is a neighbour of `u`, in bounds, not the opponent's cell, and not
walled off from `u`. -/
def bfsStep (s : GameState) (enemy : Pos) (u v : Pos) : Prop :=
  ∃ d : Dir, v = u + d.as_pos_delta ∧ bfsStepD s enemy u d

/-- Existence of a path of admissible single steps. -/
def Reaches (s : GameState) (enemy : Pos) : Pos → Pos → Prop :=
  Relation.ReflTransGen (bfsStep s enemy)

/-- How one `visitDir` call may transform the queue/visited accumulator:
monotone growth by enqueue-and-mark of fresh in-bounds cells, preserving the
sum of the queue length and the count of unvisited board cells. -/
def AccRel (s : GameState) (enemy pos : Pos) (a b : List Pos × Finset Pos) : Prop :=
  a.2 ⊆ b.2 ∧
  (∀ p ∈ a.1, p ∈ b.1) ∧
  (∀ p ∈ b.1, p ∈ a.1 ∨ p ∈ b.2) ∧
  (∀ p ∈ b.2, p ∈ a.2 ∨ (bfsStep s enemy pos p ∧ p ∈ b.1)) ∧
  b.1.length + (boardCells \ b.2).card = a.1.length + (boardCells \ a.2).card

/-- The loop invariant of the breadth-first search: the start cell is marked,
queued cells are marked, marked cells are reachable and in bounds, and every
marked cell no longer in the queue has been expanded (its row is not the
target and all of its admissible successors are marked). -/
def BfsInv (s : GameState) (enemy start : Pos) (target : Int)
    (q : List Pos) (v : Finset Pos) : Prop :=
  start ∈ v ∧
  (∀ p ∈ q, p ∈ v) ∧
  (∀ p ∈ v, Reaches s enemy start p ∧ isPositionInbounds p) ∧
  (∀ p ∈ v, p ∉ q → p.row ≠ target ∧
    ∀ d : Dir, bfsStepD s enemy p d → p + d.as_pos_delta ∈ v)

/-- The validation cascade of `move`, in source order: out-of-bounds, then
wall-blocked, then occupied; the empty string signals success. -/
def moveErrSpec (s : GameState) (i : Fin 2) (d : Dir) : String :=
  let cur := (s.player i).pos
  let np := cur + d.as_pos_delta
  if ¬ isPositionInbounds np then moveOobMsg cur np
  else if wall_exists? s cur d = some true then moveWallMsg cur np
  else if np = (s.player (1 - i)).pos then moveOccMsg cur np
  else ""

/-- The state reached from `new_game` by a successful composite wall placement
on the top edges of cells `(0, 0)` and `(0, 1)`. -/
def wallState : GameState :=
  { new_game with
    edges_up := ⟨BOARD_SIZE - 1, BOARD_SIZE, ((List.replicate 72 false).set 0 true).set 1 true⟩ }

/-- `new_game` with player 0's wall balance set to zero. -/
def zeroBalanceState : GameState :=
  { new_game with
    players := ({ new_game.players.1 with wall_balance := 0 }, new_game.players.2) }

/-- A state with player 0 one step below its goal row, clear of the opponent's
column. -/
def nearWinState : GameState := new_game.setPlayerPos 0 ⟨7, 3⟩

/-! ## Basic lemmas -/

theorem str_append_ne_empty (a b : String) (h : a ≠ "") : a ++ b ≠ "" := by
  intro he
  apply h
  have hl := congrArg String.length he
  rw [String.length_append] at hl
  have h0 : ("" : String).length = 0 := rfl
  rw [h0] at hl
  have : a.length = 0 := by omega
  cases a with
  | mk l =>
    cases l with
    | nil => rfl
    | cons c cs => simp [String.length, List.length] at this

theorem moveOobMsg_ne (cur np : Pos) : moveOobMsg cur np ≠ "" := by
  unfold moveOobMsg
  apply str_append_ne_empty
  apply str_append_ne_empty
  apply str_append_ne_empty
  apply str_append_ne_empty
  decide

theorem moveWallMsg_ne (cur np : Pos) : moveWallMsg cur np ≠ "" := by
  unfold moveWallMsg
  apply str_append_ne_empty
  apply str_append_ne_empty
  apply str_append_ne_empty
  apply str_append_ne_empty
  decide

theorem moveOccMsg_ne (cur np : Pos) : moveOccMsg cur np ≠ "" := by
  unfold moveOccMsg
  apply str_append_ne_empty
  apply str_append_ne_empty
  apply str_append_ne_empty
  apply str_append_ne_empty
  decide

theorem invalidCellMsg_ne (cell : Pos) (edge : Dir) : invalidCellMsg cell edge ≠ "" := by
  unfold invalidCellMsg
  apply str_append_ne_empty
  apply str_append_ne_empty
  apply str_append_ne_empty
  apply str_append_ne_empty
  decide

/-- When both a cell and its neighbour toward `d` are in bounds, the canonical
wall slot between them is valid, so `wall_exists` cannot raise. -/
theorem canonicalValid_of_inbounds (u : Pos) (d : Dir)
    (hu : isPositionInbounds u) (hv : isPositionInbounds (u + d.as_pos_delta)) :
    canonicalValid (wallCanonicalShift u d) := by
  obtain ⟨h1, h2, h3, h4⟩ := hu
  obtain ⟨h5, h6, h7, h8⟩ := hv
  cases d <;>
    simp_all [wallCanonicalShift, canonicalValid, isPositionInbounds, Dir.as_pos_delta,
      Pos.add_def, BOARD_SIZE] <;>
    omega

theorem wallCanonicalIndex?_eq_some (u : Pos) (d : Dir)
    (h : canonicalValid (wallCanonicalShift u d)) :
    wallCanonicalIndex? u d = some (wallCanonicalShift u d) := by
  unfold wallCanonicalIndex?
  simp [h]

theorem wallCanonicalIndex?_eq (pos : Pos) (d : Dir) (cc : Pos) (oc : Orient)
    (h : wallCanonicalIndex? pos d = some (cc, oc)) :
    wallCanonicalShift pos d = (cc, oc) ∧ canonicalValid (cc, oc) := by
  unfold wallCanonicalIndex? at h
  dsimp only at h
  split at h
  · rename_i hv
    obtain h := Option.some.inj h
    exact ⟨h, h ▸ hv⟩
  · cases h

theorem wall_exists?_isSome (s : GameState) (u : Pos) (d : Dir)
    (hu : isPositionInbounds u) (hv : isPositionInbounds (u + d.as_pos_delta)) :
    (wall_exists? s u d).isSome := by
  unfold wall_exists?
  rw [wallCanonicalIndex?_eq_some u d (canonicalValid_of_inbounds u d hu hv)]
  rcases wallCanonicalShift u d with ⟨p, o⟩
  cases o <;> simp

/-! ## Player accessor lemmas -/

theorem player_setPlayerPos_self (s : GameState) (i : Fin 2) (p : Pos) :
    ((s.setPlayerPos i p).player i).pos = p := by
  fin_cases i <;> simp [GameState.setPlayerPos, GameState.player]

theorem player_setPlayerPos_other (s : GameState) (i : Fin 2) (p : Pos) :
    ((s.setPlayerPos i p).player (1 - i)) = s.player (1 - i) := by
  fin_cases i <;> simp [GameState.setPlayerPos, GameState.player]

theorem setPlayerPos_ne (s : GameState) (i : Fin 2) (p : Pos)
    (h : p ≠ (s.player i).pos) : s.setPlayerPos i p ≠ s := by
  intro he
  apply h
  calc p = ((s.setPlayerPos i p).player i).pos := (player_setPlayerPos_self s i p).symm
    _ = (s.player i).pos := by rw [he]

/-! ## Specification of `move` -/

theorem move_spec (s : GameState) (i : Fin 2) (d : Dir) (s' : GameState)
    (won : Bool) (msg : String) (h : move s i d = some (s', won, msg)) :
    msg = moveErrSpec s i d ∧
      ((msg = "" ∧ s' = s.setPlayerPos i ((s.player i).pos + d.as_pos_delta)) ∨
        (msg ≠ "" ∧ s' = s)) := by
  unfold move at h
  unfold moveErrSpec
  by_cases hnp : isPositionInbounds ((s.player i).pos + d.as_pos_delta)
  · rw [if_neg (not_not_intro hnp)] at h
    rw [if_neg (not_not_intro hnp)]
    rcases hwe : wall_exists? s ((s.player i).pos) d with _ | b
    · rw [hwe] at h; cases h
    · rw [hwe] at h
      cases b
      · simp only at h
        rw [if_neg (by intro hx; cases hx)]
        by_cases hen : (s.player i).pos + d.as_pos_delta = (s.player (1 - i)).pos
        · rw [if_pos hen] at h
          rw [if_pos hen]
          simp only [Option.some.injEq, Prod.mk.injEq] at h
          exact ⟨h.2.2.symm, Or.inr ⟨h.2.2 ▸ moveOccMsg_ne _ _, h.1.symm⟩⟩
        · rw [if_neg hen] at h
          rw [if_neg hen]
          split at h <;> [skip; split at h] <;>
            · simp only [Option.some.injEq, Prod.mk.injEq] at h
              exact ⟨h.2.2.symm, Or.inl ⟨h.2.2.symm, h.1.symm⟩⟩
      · simp only at h
        rw [if_pos rfl]
        simp only [Option.some.injEq, Prod.mk.injEq] at h
        exact ⟨h.2.2.symm, Or.inr ⟨h.2.2 ▸ moveWallMsg_ne _ _, h.1.symm⟩⟩
  · rw [if_pos hnp] at h
    rw [if_pos hnp]
    simp only [Option.some.injEq, Prod.mk.injEq] at h
    exact ⟨h.2.2.symm, Or.inr ⟨h.2.2 ▸ moveOobMsg_ne _ _, h.1.symm⟩⟩

/-- `move` never raises on a state whose pawns are in bounds: the destination
bounds check runs before the wall query, so the canonical-index `IndexError`
is unreachable. -/
theorem move_isSome (s : GameState) (i : Fin 2) (d : Dir)
    (h0 : isPositionInbounds ((s.player 0).pos))
    (h1 : isPositionInbounds ((s.player 1).pos)) :
    (move s i d).isSome := by
  have hcur : isPositionInbounds ((s.player i).pos) := by fin_cases i <;> assumption
  unfold move
  by_cases hnp : isPositionInbounds ((s.player i).pos + d.as_pos_delta)
  · rw [if_neg (not_not_intro hnp)]
    have hw := wall_exists?_isSome s ((s.player i).pos) d hcur hnp
    rcases hwe : wall_exists? s ((s.player i).pos) d with _ | b
    · rw [hwe] at hw; cases hw
    · cases b
      · simp only
        split
        · rfl
        · split
          · rfl
          · split <;> rfl
      · rfl
  · rw [if_pos hnp]
    rfl

/-- On a success, `move` moved the pawn to an in-bounds cell distinct from the
other pawn's cell. -/
theorem move_success (s : GameState) (i : Fin 2) (d : Dir) (s' : GameState)
    (won : Bool) (h : move s i d = some (s', won, "")) :
    s' = s.setPlayerPos i ((s.player i).pos + d.as_pos_delta) ∧
      isPositionInbounds ((s.player i).pos + d.as_pos_delta) ∧
      (s.player i).pos + d.as_pos_delta ≠ (s.player (1 - i)).pos := by
  obtain ⟨hc, hd⟩ := move_spec s i d s' won "" h
  unfold moveErrSpec at hc
  by_cases hnp : isPositionInbounds ((s.player i).pos + d.as_pos_delta)
  · rw [if_neg (not_not_intro hnp)] at hc
    by_cases hw : wall_exists? s ((s.player i).pos) d = some true
    · rw [if_pos hw] at hc
      exact absurd hc.symm (moveWallMsg_ne _ _)
    · rw [if_neg hw] at hc
      by_cases hen : (s.player i).pos + d.as_pos_delta = (s.player (1 - i)).pos
      · rw [if_pos hen] at hc
        exact absurd hc.symm (moveOccMsg_ne _ _)
      · rcases hd with ⟨_, hs⟩ | ⟨hne, _⟩
        · exact ⟨hs, hnp, hen⟩
        · exact absurd rfl hne
  · rw [if_pos hnp] at hc
    exact absurd hc.symm (moveOobMsg_ne _ _)

/-! ## Specification of `wall_place` and `wall_place_composite` -/

theorem wall_place_players (s : GameState) (p : Pos) (d : Dir) (t : GameState)
    (h : wall_place s p d = Except.ok t) : t.players = s.players := by
  unfold wall_place at h
  split at h
  · cases h
  · split at h
    · cases h
    · injection h with h'
      subst h'
      rfl
  · split at h
    · cases h
    · injection h with h'
      subst h'
      rfl

/-- Every failing `wall_place_composite` call returns the state it was given:
all checks run before any mutation. -/
theorem wall_place_composite_fail (s : GameState) (cell : Pos) (edge exts : Dir)
    (s' : GameState) (msg : String)
    (h : wall_place_composite s cell edge exts = some (s', msg)) (hne : msg ≠ "") :
    s' = s := by
  unfold wall_place_composite at h
  dsimp only at h
  split at h
  · simp only [Option.some.injEq, Prod.mk.injEq] at h
    exact h.1.symm
  · split at h
    · simp only [Option.some.injEq, Prod.mk.injEq] at h
      exact h.1.symm
    · split at h
      · simp only [Option.some.injEq, Prod.mk.injEq] at h
        exact h.1.symm
      · split at h
        · simp only [Option.some.injEq, Prod.mk.injEq] at h
          exact h.1.symm
        · split at h
          · cases h
          · simp only [Option.some.injEq, Prod.mk.injEq] at h
            exact h.1.symm
          · split at h
            · cases h
            · simp only [Option.some.injEq, Prod.mk.injEq] at h
              exact h.1.symm
            · split at h
              · cases h
              · split at h
                · cases h
                · split at h
                  · cases h
                  · simp only [Option.some.injEq, Prod.mk.injEq] at h
                    exact h.1.symm
                  · split at h
                    · cases h
                    · simp only [Option.some.injEq, Prod.mk.injEq] at h
                      exact h.1.symm
                    · simp only [Option.some.injEq, Prod.mk.injEq] at h
                      exact absurd h.2.symm hne

/-- Extraction of all facts established along the success path of
`wall_place_composite`. -/
theorem wall_place_composite_success (s : GameState) (cell : Pos) (edge exts : Dir)
    (s' : GameState) (h : wall_place_composite s cell edge exts = some (s', "")) :
    ∃ cc oc, wallCanonicalIndex? cell edge = some (cc, oc) ∧
      (oc = Orient.up → exts = Dir.left ∨ exts = Dir.right) ∧
      (oc = Orient.right → exts = Dir.up ∨ exts = Dir.down) ∧
      isPositionInbounds (cc + exts.as_pos_delta) ∧
      wall_exists? s cc oc.toDir = some false ∧
      wall_exists? s (cc + exts.as_pos_delta) oc.toDir = some false ∧
      ∃ t1, wall_place s cc oc.toDir = Except.ok t1 ∧
        wall_place t1 (cc + exts.as_pos_delta) oc.toDir = Except.ok s' ∧
        can_player_reach_goal s' 0 = some true ∧
        can_player_reach_goal s' 1 = some true := by
  unfold wall_place_composite at h
  dsimp only at h
  split at h
  · exfalso
    simp only [Option.some.injEq, Prod.mk.injEq] at h
    exact invalidCellMsg_ne cell edge h.2
  · rename_i cc oc hcanon
    refine ⟨cc, oc, hcanon, ?_⟩
    split at h
    · exfalso
      simp only [Option.some.injEq, Prod.mk.injEq] at h
      exact (by decide : horizMismatchMsg ≠ "") h.2
    · rename_i hm1
      split at h
      · exfalso
        simp only [Option.some.injEq, Prod.mk.injEq] at h
        exact (by decide : vertMismatchMsg ≠ "") h.2
      · rename_i hm2
        split at h
        · exfalso
          simp only [Option.some.injEq, Prod.mk.injEq] at h
          exact (by decide : extendsOobMsg ≠ "") h.2
        · rename_i hninb
          have hinb : isPositionInbounds (cc + exts.as_pos_delta) := not_not.mp hninb
          have ho1 : oc = Orient.up → exts = Dir.left ∨ exts = Dir.right := by
            intro ho
            subst ho
            by_contra hx
            exact hm1 ⟨rfl, hx⟩
          have ho2 : oc = Orient.right → exts = Dir.up ∨ exts = Dir.down := by
            intro ho
            subst ho
            by_contra hx
            exact hm2 ⟨rfl, hx⟩
          split at h
          · cases h
          · exfalso
            simp only [Option.some.injEq, Prod.mk.injEq] at h
            exact (by decide : overlapMsg ≠ "") h.2
          · rename_i hw1
            split at h
            · cases h
            · exfalso
              simp only [Option.some.injEq, Prod.mk.injEq] at h
              exact (by decide : overlapMsg ≠ "") h.2
            · rename_i hw2
              split at h
              · cases h
              · rename_i t1 hp1
                split at h
                · cases h
                · rename_i t2 hp2
                  split at h
                  · cases h
                  · exfalso
                    simp only [Option.some.injEq, Prod.mk.injEq] at h
                    exact (by decide : impossibleMsg 0 ≠ "") h.2
                  · rename_i hr0
                    split at h
                    · cases h
                    · exfalso
                      simp only [Option.some.injEq, Prod.mk.injEq] at h
                      exact (by decide : impossibleMsg 1 ≠ "") h.2
                    · rename_i hr1
                      simp only [Option.some.injEq, Prod.mk.injEq] at h
                      exact ⟨ho1, ho2, hinb, hw1, hw2, t1, hp1,
                        h.1 ▸ hp2, h.1 ▸ hr0, h.1 ▸ hr1⟩

/-! ## Bit-level placement lemmas -/

theorem pos_add_delta_ne (p : Pos) (d : Dir) : p + d.as_pos_delta ≠ p := by
  obtain ⟨r, c⟩ := p
  cases d <;>
    · simp only [Dir.as_pos_delta, Pos.add_def, ne_eq, Pos.mk.injEq, not_and]
      omega

theorem wallCanonicalIndex?_toDir (p : Pos) (o : Orient)
    (h : canonicalValid (p, o)) : wallCanonicalIndex? p o.toDir = some (p, o) := by
  cases o <;> exact wallCanonicalIndex?_eq_some _ _ h

theorem wall_exists?_canonical_up (s : GameState) (p : Pos)
    (h : canonicalValid (p, Orient.up)) :
    wall_exists? s p Dir.up = some (s.edges_up.get p) := by
  unfold wall_exists?
  rw [show wallCanonicalIndex? p Dir.up = some (p, Orient.up) from
    wallCanonicalIndex?_toDir p .up h]

theorem wall_exists?_canonical_right (s : GameState) (p : Pos)
    (h : canonicalValid (p, Orient.right)) :
    wall_exists? s p Dir.right = some (s.edges_right.get p) := by
  unfold wall_exists?
  rw [show wallCanonicalIndex? p Dir.right = some (p, Orient.right) from
    wallCanonicalIndex?_toDir p .right h]

/-- Extending a valid canonical slot one cell along the wall's own axis yields
another valid canonical slot of the same orientation, provided the extension
cell is in bounds. -/
theorem canonicalValid_extends (cc : Pos) (o : Orient) (exts : Dir)
    (hval : canonicalValid (cc, o))
    (horth1 : o = Orient.up → exts = Dir.left ∨ exts = Dir.right)
    (horth2 : o = Orient.right → exts = Dir.up ∨ exts = Dir.down)
    (hinb : isPositionInbounds (cc + exts.as_pos_delta)) :
    canonicalValid (cc + exts.as_pos_delta, o) := by
  obtain ⟨r, c⟩ := cc
  cases o
  · rcases horth1 rfl with he | he <;>
      · subst he
        simp only [canonicalValid, isPositionInbounds, Dir.as_pos_delta, Pos.add_def,
          BOARD_SIZE] at hval hinb ⊢
        omega
  · rcases horth2 rfl with he | he <;>
      · subst he
        simp only [canonicalValid, isPositionInbounds, Dir.as_pos_delta, Pos.add_def,
          BOARD_SIZE] at hval hinb ⊢
        omega

/-- Setting two distinct in-range bits of an edge grid succeeds (no
duplicate-bit assert) and both bits read back set. -/
theorem Edges.two_sets (e : Edges) (cc ccE : Pos)
    (hne : (cc.row * e.cols + cc.col).toNat ≠ (ccE.row * e.cols + ccE.col).toNat)
    (hlt : (cc.row * e.cols + cc.col).toNat < e.cells.length)
    (hltE : (ccE.row * e.cols + ccE.col).toNat < e.cells.length)
    (h1 : e.get cc = false) (h2 : e.get ccE = false) :
    ∃ e1 e2, e.set? cc = some e1 ∧ e1.set? ccE = some e2 ∧
      e2.get cc = true ∧ e2.get ccE = true ∧
      e1.rows = e.rows ∧ e1.cols = e.cols ∧ e1.cells.length = e.cells.length ∧
      e2.rows = e.rows ∧ e2.cols = e.cols ∧ e2.cells.length = e.cells.length := by
  unfold Edges.get at h1 h2
  simp only [List.getD_eq_getElem?_getD] at h1 h2
  have hgA : ((e.cells.set ((cc.row * e.cols + cc.col).toNat) true)[(ccE.row * e.cols + ccE.col).toNat]?).getD false = false := by
    rw [List.getElem?_set_ne hne]
    exact h2
  refine ⟨{ e with cells := e.cells.set (cc.row * e.cols + cc.col).toNat true },
    { e with cells := ((e.cells.set (cc.row * e.cols + cc.col).toNat true).set (ccE.row * e.cols + ccE.col).toNat true) },
    ?_, ?_, ?_, ?_, rfl, rfl, by simp, rfl, rfl, by simp⟩
  · unfold Edges.set?
    dsimp only
    rw [if_neg (by simp [List.getD_eq_getElem?_getD, h1])]
  · unfold Edges.set?
    dsimp only
    rw [if_neg (by simp [List.getD_eq_getElem?_getD, hgA])]
  · unfold Edges.get
    dsimp only
    simp [List.getD_eq_getElem?_getD, List.getElem?_set_ne (Ne.symm hne),
      List.getElem?_set_self, hlt]
  · unfold Edges.get
    dsimp only
    simp [List.getD_eq_getElem?_getD, List.getElem?_set_self, hltE]

theorem wallCanonicalIndex?_up (p : Pos) (h : canonicalValid (p, Orient.up)) :
    wallCanonicalIndex? p Dir.up = some (p, Orient.up) :=
  wallCanonicalIndex?_eq_some p Dir.up h

theorem wallCanonicalIndex?_right (p : Pos) (h : canonicalValid (p, Orient.right)) :
    wallCanonicalIndex? p Dir.right = some (p, Orient.right) :=
  wallCanonicalIndex?_eq_some p Dir.right h

/-- The two segment placements performed by `wall_place_composite` after its
overlap pre-check always succeed: the segments occupy distinct valid slots of
the same orientation, so neither the canonical-index `IndexError` nor the
duplicate-bit assert of `Edges.set` can fire, on the trial copy or on the live
commit (which, in this pure embedding, are the same computation). -/
theorem two_places_ok (s : GameState) (hWF : s.WF) (cc ccE : Pos) (o : Orient)
    (hval : canonicalValid (cc, o)) (hvalE : canonicalValid (ccE, o)) (hne : cc ≠ ccE)
    (h1 : wall_exists? s cc o.toDir = some false)
    (h2 : wall_exists? s ccE o.toDir = some false) :
    ∃ t1 t2, wall_place s cc o.toDir = Except.ok t1 ∧
      wall_place t1 ccE o.toDir = Except.ok t2 ∧
      wall_exists? t2 cc o.toDir = some true ∧
      wall_exists? t2 ccE o.toDir = some true := by
  obtain ⟨hur, huc, hul, hrr, hrc, hrl⟩ := hWF
  cases o
  · simp only [Orient.toDir] at h1 h2 ⊢
    rw [wall_exists?_canonical_up s cc hval] at h1
    rw [wall_exists?_canonical_up s ccE hvalE] at h2
    have hidx : (cc.row * s.edges_up.cols + cc.col).toNat ≠
        (ccE.row * s.edges_up.cols + ccE.col).toNat := by
      obtain ⟨r, c⟩ := cc
      obtain ⟨r2, c2⟩ := ccE
      simp only [canonicalValid, isPositionInbounds, BOARD_SIZE] at hval hvalE
      simp only [ne_eq, Pos.mk.injEq, not_and] at hne
      rw [huc]
      simp only [BOARD_SIZE]
      by_cases hr : r = r2
      · subst hr
        have hc : c ≠ c2 := fun hc => hne rfl hc
        omega
      · omega
    have hlt : (cc.row * s.edges_up.cols + cc.col).toNat < s.edges_up.cells.length := by
      obtain ⟨r, c⟩ := cc
      simp only [canonicalValid, isPositionInbounds, BOARD_SIZE] at hval
      rw [hul, hur, huc]
      simp only [BOARD_SIZE]
      omega
    have hltE : (ccE.row * s.edges_up.cols + ccE.col).toNat < s.edges_up.cells.length := by
      obtain ⟨r2, c2⟩ := ccE
      simp only [canonicalValid, isPositionInbounds, BOARD_SIZE] at hvalE
      rw [hul, hur, huc]
      simp only [BOARD_SIZE]
      omega
    obtain ⟨e1, e2, hs1, hs2, hg1, hg2, -, e1c, -, -, e2c, -⟩ :=
      Edges.two_sets s.edges_up cc ccE hidx hlt hltE (Option.some.inj h1) (Option.some.inj h2)
    refine ⟨{ s with edges_up := e1 }, { s with edges_up := e2 }, ?_, ?_, ?_, ?_⟩
    · unfold wall_place
      rw [wallCanonicalIndex?_up cc hval]
      dsimp only
      rw [hs1]
    · unfold wall_place
      rw [wallCanonicalIndex?_up ccE hvalE]
      dsimp only
      rw [hs2]
    · rw [wall_exists?_canonical_up _ cc hval, hg1]
    · rw [wall_exists?_canonical_up _ ccE hvalE, hg2]
  · simp only [Orient.toDir] at h1 h2 ⊢
    rw [wall_exists?_canonical_right s cc hval] at h1
    rw [wall_exists?_canonical_right s ccE hvalE] at h2
    have hidx : (cc.row * s.edges_right.cols + cc.col).toNat ≠
        (ccE.row * s.edges_right.cols + ccE.col).toNat := by
      obtain ⟨r, c⟩ := cc
      obtain ⟨r2, c2⟩ := ccE
      simp only [canonicalValid, isPositionInbounds, BOARD_SIZE] at hval hvalE
      simp only [ne_eq, Pos.mk.injEq, not_and] at hne
      rw [hrc]
      simp only [BOARD_SIZE]
      by_cases hr : r = r2
      · subst hr
        have hc : c ≠ c2 := fun hc => hne rfl hc
        omega
      · omega
    have hlt : (cc.row * s.edges_right.cols + cc.col).toNat < s.edges_right.cells.length := by
      obtain ⟨r, c⟩ := cc
      simp only [canonicalValid, isPositionInbounds, BOARD_SIZE] at hval
      rw [hrl, hrr, hrc]
      simp only [BOARD_SIZE]
      omega
    have hltE : (ccE.row * s.edges_right.cols + ccE.col).toNat < s.edges_right.cells.length := by
      obtain ⟨r2, c2⟩ := ccE
      simp only [canonicalValid, isPositionInbounds, BOARD_SIZE] at hvalE
      rw [hrl, hrr, hrc]
      simp only [BOARD_SIZE]
      omega
    obtain ⟨e1, e2, hs1, hs2, hg1, hg2, -, e1c, -, -, e2c, -⟩ :=
      Edges.two_sets s.edges_right cc ccE hidx hlt hltE (Option.some.inj h1) (Option.some.inj h2)
    refine ⟨{ s with edges_right := e1 }, { s with edges_right := e2 }, ?_, ?_, ?_, ?_⟩
    · unfold wall_place
      rw [wallCanonicalIndex?_right cc hval]
      dsimp only
      rw [hs1]
    · unfold wall_place
      rw [wallCanonicalIndex?_right ccE hvalE]
      dsimp only
      rw [hs2]
    · rw [wall_exists?_canonical_right _ cc hval, hg1]
    · rw [wall_exists?_canonical_right _ ccE hvalE, hg2]

/-! ## Correctness of the reachability search -/

theorem accRel_refl (s : GameState) (enemy pos : Pos) (a : List Pos × Finset Pos) :
    AccRel s enemy pos a a :=
  ⟨Finset.Subset.refl _, fun _ h => h, fun _ h => Or.inl h, fun _ h => Or.inl h, rfl⟩

theorem accRel_trans (s : GameState) (enemy pos : Pos)
    (a b c : List Pos × Finset Pos)
    (hab : AccRel s enemy pos a b) (hbc : AccRel s enemy pos b c) :
    AccRel s enemy pos a c := by
  obtain ⟨s1, q1, o1, w1, m1⟩ := hab
  obtain ⟨s2, q2, o2, w2, m2⟩ := hbc
  refine ⟨s1.trans s2, fun p hp => q2 p (q1 p hp), ?_, ?_, m2.trans m1⟩
  · intro p hp
    rcases o2 p hp with h | h
    · rcases o1 p h with h' | h'
      · exact Or.inl h'
      · exact Or.inr (s2 h')
    · exact Or.inr h
  · intro p hp
    rcases w2 p hp with h | ⟨hst, hq⟩
    · rcases w1 p h with h' | ⟨hst', hq'⟩
      · exact Or.inl h'
      · exact Or.inr ⟨hst', q2 p hq'⟩
    · exact Or.inr ⟨hst, hq⟩

theorem visitDir_isSome (s : GameState) (enemy pos : Pos)
    (acc : List Pos × Finset Pos) (d : Dir) (hpos : isPositionInbounds pos) :
    (visitDir s enemy pos acc d).isSome := by
  unfold visitDir
  dsimp only
  split
  · rfl
  · split
    · rfl
    · split
      · rfl
      · rename_i hnp _
        have hw := wall_exists?_isSome s pos d hpos (not_not.mp hnp)
        rcases hwe : wall_exists? s pos d with _ | bb
        · rw [hwe] at hw; cases hw
        · cases bb <;> rfl

theorem visitDir_spec (s : GameState) (enemy pos : Pos)
    (acc b : List Pos × Finset Pos) (d : Dir)
    (h : visitDir s enemy pos acc d = some b) :
    AccRel s enemy pos acc b ∧
      (bfsStepD s enemy pos d → pos + d.as_pos_delta ∈ b.2) := by
  unfold visitDir at h
  dsimp only at h
  split at h
  · rename_i hen
    cases h
    exact ⟨accRel_refl _ _ _ _, fun hD => absurd hen hD.1⟩
  · rename_i hen
    split at h
    · rename_i hni
      cases h
      exact ⟨accRel_refl _ _ _ _, fun hD => absurd hD.2.1 (by simpa using hni)⟩
    · rename_i hni
      split at h
      · rename_i hvis
        cases h
        exact ⟨accRel_refl _ _ _ _, fun _ => hvis⟩
      · rename_i hvis
        split at h
        · cases h
        · rename_i hwt
          cases h
          exact ⟨accRel_refl _ _ _ _, fun hD => absurd hD.2.2 (by rw [hwt]; simp)⟩
        · rename_i hwf
          cases h
          have hnp : isPositionInbounds (pos + d.as_pos_delta) := not_not.mp hni
          have hstep : bfsStepD s enemy pos d := ⟨hen, hnp, hwf⟩
          have hmem : pos + d.as_pos_delta ∈ boardCells \ acc.2 :=
            Finset.mem_sdiff.mpr ⟨(mem_boardCells _).mpr hnp, hvis⟩
          have hcard : ((boardCells \ acc.2).erase (pos + d.as_pos_delta)).card + 1 =
              (boardCells \ acc.2).card := Finset.card_erase_add_one hmem
          refine ⟨⟨Finset.subset_insert _ _, ?_, ?_, ?_, ?_⟩, fun _ => Finset.mem_insert_self _ _⟩
          · intro p hp
            exact List.mem_append_left _ hp
          · intro p hp
            rcases List.mem_append.mp hp with h' | h'
            · exact Or.inl h'
            · rw [List.mem_singleton] at h'
              subst h'
              exact Or.inr (Finset.mem_insert_self _ _)
          · intro p hp
            rcases Finset.mem_insert.mp hp with h' | h'
            · subst h'
              exact Or.inr ⟨⟨d, rfl, hstep⟩, List.mem_append_right _ (List.mem_singleton_self _)⟩
            · exact Or.inl h'
          · dsimp only
            rw [Finset.sdiff_insert, List.length_append]
            simp only [List.length_singleton]
            omega

theorem visitAll_isSome (s : GameState) (enemy pos : Pos)
    (acc : List Pos × Finset Pos) (hpos : isPositionInbounds pos) :
    (visitAll s enemy pos acc).isSome := by
  unfold visitAll
  rcases h1 : visitDir s enemy pos acc .up with _ | a1
  · have := visitDir_isSome s enemy pos acc .up hpos
    rw [h1] at this; cases this
  rcases h2 : visitDir s enemy pos a1 .down with _ | a2
  · have := visitDir_isSome s enemy pos a1 .down hpos
    rw [h2] at this; cases this
  rcases h3 : visitDir s enemy pos a2 .left with _ | a3
  · have := visitDir_isSome s enemy pos a2 .left hpos
    rw [h3] at this; cases this
  have h4 := visitDir_isSome s enemy pos a3 .right hpos
  simp [h1, h2, h3]
  exact h4

theorem visitAll_spec (s : GameState) (enemy pos : Pos)
    (acc b : List Pos × Finset Pos)
    (h : visitAll s enemy pos acc = some b) :
    AccRel s enemy pos acc b ∧
      ∀ d : Dir, bfsStepD s enemy pos d → pos + d.as_pos_delta ∈ b.2 := by
  unfold visitAll at h
  rcases h1 : visitDir s enemy pos acc .up with _ | a1 <;> rw [h1] at h
  · cases h
  simp only [Option.some_bind] at h
  rcases h2 : visitDir s enemy pos a1 .down with _ | a2 <;> rw [h2] at h
  · cases h
  simp only [Option.some_bind] at h
  rcases h3 : visitDir s enemy pos a2 .left with _ | a3 <;> rw [h3] at h
  · cases h
  simp only [Option.some_bind] at h
  obtain ⟨r1, c1⟩ := visitDir_spec s enemy pos acc a1 .up h1
  obtain ⟨r2, c2⟩ := visitDir_spec s enemy pos a1 a2 .down h2
  obtain ⟨r3, c3⟩ := visitDir_spec s enemy pos a2 a3 .left h3
  obtain ⟨r4, c4⟩ := visitDir_spec s enemy pos a3 b .right h
  have r12 := accRel_trans s enemy pos acc a1 a2 r1 r2
  have r13 := accRel_trans s enemy pos acc a2 a3 r12 r3
  have r14 := accRel_trans s enemy pos acc a3 b r13 r4
  refine ⟨r14, ?_⟩
  intro d hD
  cases d
  · exact ((r2.1.trans r3.1).trans r4.1) (c1 hD)
  · exact (r3.1.trans r4.1) (c2 hD)
  · exact r4.1 (c3 hD)
  · exact c4 hD

/-- The loop of the reachability search, under its invariant and with enough
fuel, terminates without exception and answers exactly whether some cell of
the target row is reachable. -/
theorem bfsAux_spec (s : GameState) (enemy start : Pos) (target : Int) :
    ∀ (fuel : Nat) (q : List Pos) (v : Finset Pos),
      q.length + (boardCells \ v).card < fuel →
      BfsInv s enemy start target q v →
      ∃ b, bfsAux s enemy target fuel q v = some b ∧
        (b = true ↔ ∃ p, Reaches s enemy start p ∧ p.row = target) := by
  intro fuel
  induction fuel with
  | zero =>
    intro q v hm _
    exact absurd hm (Nat.not_lt_zero _)
  | succ f ih =>
    intro q v hm hinv
    obtain ⟨hstart, hqv, hvr, hproc⟩ := hinv
    cases q with
    | nil =>
      refine ⟨false, rfl, ?_⟩
      have hclosed : ∀ p, Reaches s enemy start p → p ∈ v := by
        intro p hp
        induction hp with
        | refl => exact hstart
        | tail hab hbc ihb =>
          rename_i b' c'
          obtain ⟨d, rfl, hD⟩ := hbc
          exact (hproc b' ihb (by simp)).2 d hD
      constructor
      · intro hf
        cases hf
      · rintro ⟨p, hp, hrow⟩
        exact absurd hrow (hproc p (hclosed p hp) (by simp)).1
    | cons pos rest =>
      by_cases hrow : pos.row = target
      · refine ⟨true, ?_, ?_⟩
        · simp only [bfsAux]
          rw [if_pos hrow]
        · simp only [true_iff]
          exact ⟨pos, (hvr pos (hqv pos (by simp))).1, hrow⟩
      · have hpos_v : pos ∈ v := hqv pos (by simp)
        have hpos_inb := (hvr pos hpos_v).2
        rcases hva : visitAll s enemy pos (rest, v) with _ | qv
        · have hsome := visitAll_isSome s enemy pos (rest, v) hpos_inb
          rw [hva] at hsome
          cases hsome
        · obtain ⟨q2, v2⟩ := qv
          obtain ⟨⟨hsub, hqpres, hqorig, hvorig, hmeas⟩, hcov⟩ :=
            visitAll_spec s enemy pos (rest, v) (q2, v2) hva
          have hinv2 : BfsInv s enemy start target q2 v2 := by
            refine ⟨hsub hstart, ?_, ?_, ?_⟩
            · intro p hp
              rcases hqorig p hp with h | h
              · exact hsub (hqv p (List.mem_cons_of_mem pos h))
              · exact h
            · intro p hp
              rcases hvorig p hp with h | ⟨hstep, hq⟩
              · exact hvr p h
              · obtain ⟨d, hpd, hD⟩ := hstep
                refine ⟨Relation.ReflTransGen.tail (hvr pos hpos_v).1 ⟨d, hpd, hD⟩, ?_⟩
                rw [hpd]
                exact hD.2.1
            · intro p hp hnq
              rcases hvorig p hp with hpv | ⟨_, hq⟩
              · by_cases hpp : p = pos
                · subst hpp
                  exact ⟨hrow, fun d hD => hcov d hD⟩
                · have hnrest : p ∉ rest := fun hr => hnq (hqpres p hr)
                  have hold := hproc p hpv (by simp [List.mem_cons, hpp, hnrest])
                  exact ⟨hold.1, fun d hD => hsub (hold.2 d hD)⟩
              · exact absurd hq hnq
          have hm2 : q2.length + (boardCells \ v2).card < f := by
            have hlen : (pos :: rest).length = rest.length + 1 := rfl
            simp only at hmeas
            omega
          obtain ⟨b, hb, hiff⟩ := ih q2 v2 hm2 hinv2
          refine ⟨b, ?_, hiff⟩
          simp only [bfsAux]
          rw [if_neg hrow, hva]
          exact hb

theorem boardCells_card : boardCells.card = 81 := by decide

/-- `_can_player_reach_goal` never raises on an in-bounds pawn, and answers
exactly whether the pawn can reach its goal row through the move graph. -/
theorem can_player_reach_goal_spec (s : GameState) (i : Fin 2)
    (h : isPositionInbounds ((s.player i).pos)) :
    ∃ b, can_player_reach_goal s i = some b ∧
      (b = true ↔ ∃ p, Reaches s ((s.player (1 - i)).pos) ((s.player i).pos) p ∧
        p.row = (if i = 0 then BOARD_SIZE - 1 else 0)) := by
  unfold can_player_reach_goal
  dsimp only
  apply bfsAux_spec
  · have h1 : (boardCells \ {(s.player i).pos}).card ≤ boardCells.card :=
      Finset.card_le_card Finset.sdiff_subset
    have h2 := boardCells_card
    have h3 : ([(s.player i).pos] : List Pos).length = 1 := rfl
    have h4 : bfsFuel = 83 := rfl
    omega
  · refine ⟨Finset.mem_singleton_self _, ?_, ?_, ?_⟩
    · intro p hp
      rw [List.mem_singleton] at hp
      subst hp
      exact Finset.mem_singleton_self _
    · intro p hp
      rw [Finset.mem_singleton] at hp
      subst hp
      exact ⟨Relation.ReflTransGen.refl, h⟩
    · intro p hp hq
      rw [Finset.mem_singleton] at hp
      subst hp
      exact absurd (List.mem_singleton_self _) hq

/-! ## The state invariant along reachable games -/

theorem wall_place_composite_players (s : GameState) (cell : Pos) (edge exts : Dir)
    (s' : GameState) (h : wall_place_composite s cell edge exts = some (s', "")) :
    s'.players = s.players := by
  obtain ⟨cc, oc, -, -, -, -, -, -, t1, hp1, hp2, -, -⟩ :=
    wall_place_composite_success s cell edge exts s' h
  exact (wall_place_players t1 _ _ s' hp2).trans (wall_place_players s cc _ t1 hp1)

theorem reachable_invariant (s : GameState) (h : ReachableState s) :
    isPositionInbounds ((s.player 0).pos) ∧ isPositionInbounds ((s.player 1).pos) ∧
      (s.player 0).pos ≠ (s.player 1).pos := by
  induction h with
  | init => exact ⟨by decide, by decide, by decide⟩
  | move s0 s' i d won msg hr hm ih =>
    obtain ⟨hspec, hcase⟩ := move_spec s0 i d s' won msg hm
    rcases hcase with ⟨hemsg, hset⟩ | ⟨_, hset⟩
    · obtain ⟨_, hinb, hne⟩ := move_success s0 i d s' won (by rw [← hemsg]; exact hm)
      obtain ⟨hinb0, hinb1, hne01⟩ := ih
      subst hset
      fin_cases i
      · refine ⟨?_, ?_, ?_⟩
        · simpa [GameState.setPlayerPos, GameState.player] using hinb
        · simpa [GameState.setPlayerPos, GameState.player] using hinb1
        · simpa [GameState.setPlayerPos, GameState.player] using hne
      · refine ⟨?_, ?_, ?_⟩
        · simpa [GameState.setPlayerPos, GameState.player] using hinb0
        · simpa [GameState.setPlayerPos, GameState.player] using hinb
        · have hne' := hne
          simp only [GameState.player] at hne' ⊢
          simp only [GameState.setPlayerPos]
          simp at hne' ⊢
          exact Ne.symm hne'
    · subst hset
      exact ih
  | wall s0 s' cell edge exts hr hcomp ih =>
    have hpl := wall_place_composite_players s0 cell edge exts s' hcomp
    have h0 : s'.player 0 = s0.player 0 := by simp [GameState.player, hpl]
    have h1 : s'.player 1 = s0.player 1 := by simp [GameState.player, hpl]
    rw [h0, h1]
    exact ih

/-! ## Shared concrete evaluations -/

/-- A successful composite placement from the fresh game: the wall occupies
the top edges of `(0, 0)` and `(0, 1)`, and nothing else changes. -/
theorem composite_new_game_eval :
    wall_place_composite new_game ⟨0, 0⟩ Dir.up Dir.right = some (wallState, "") := by
  decide

/-! ## The claims -/

/-- C2: for every game state and every call to `wall_place_composite` that
returns a non-empty error string (any of the failure branches), the entire
live `GameState` — both players' positions, both wall balances, and every bit
of `edges_up` and `edges_right` — is identical after the call to before it. -/
theorem claim_C2 (s : GameState) (cell : Pos) (edge exts : Dir)
    (s' : GameState) (msg : String)
    (h : wall_place_composite s cell edge exts = some (s', msg)) (hne : msg ≠ "") :
    s' = s :=
  wall_place_composite_fail s cell edge exts s' msg h hne

theorem claim_C2_witness :
    wall_place_composite new_game ⟨8, 0⟩ Dir.up Dir.right =
        some (new_game, invalidCellMsg ⟨8, 0⟩ Dir.up) ∧
      invalidCellMsg ⟨8, 0⟩ Dir.up ≠ "" ∧ new_game = new_game := by
  have h : wall_place_composite new_game ⟨8, 0⟩ Dir.up Dir.right =
      some (new_game, invalidCellMsg ⟨8, 0⟩ Dir.up) := by decide
  exact ⟨h, invalidCellMsg_ne _ _,
    claim_C2 new_game ⟨8, 0⟩ Dir.up Dir.right new_game _ h (invalidCellMsg_ne _ _)⟩

/-- C3: for every in-bounds game state, every `move` call returns a result,
its error string follows the source's validation cascade (out-of-bounds, then
wall-blocked, then occupied), and exactly one of the following holds: the
error is empty and the moving player's position becomes its previous position
plus the direction's delta (and the state genuinely changed), or the error is
non-empty and the whole state is unchanged — never a partial update. -/
theorem claim_C3 (s : GameState) (i : Fin 2) (d : Dir)
    (h0 : isPositionInbounds ((s.player 0).pos))
    (h1 : isPositionInbounds ((s.player 1).pos)) :
    ∃ s' won err, move s i d = some (s', won, err) ∧
      err = moveErrSpec s i d ∧
      ((err = "" ∧ s' = s.setPlayerPos i ((s.player i).pos + d.as_pos_delta) ∧ s' ≠ s) ∨
        (err ≠ "" ∧ s' = s)) := by
  have hs := move_isSome s i d h0 h1
  rcases hm : move s i d with _ | ⟨s', won, err⟩
  · rw [hm] at hs
    cases hs
  · obtain ⟨hspec, hcase⟩ := move_spec s i d s' won err hm
    refine ⟨s', won, err, rfl, hspec, ?_⟩
    rcases hcase with ⟨he, hset⟩ | ⟨hne, hset⟩
    · refine Or.inl ⟨he, hset, ?_⟩
      rw [hset]
      exact setPlayerPos_ne s i _ (pos_add_delta_ne (s.player i).pos d)
    · exact Or.inr ⟨hne, hset⟩

theorem claim_C3_witness :
    ∃ s' won err, move new_game 0 Dir.up = some (s', won, err) ∧
      err = moveErrSpec new_game 0 Dir.up ∧
      ((err = "" ∧ s' = new_game.setPlayerPos 0 ((new_game.player 0).pos + Dir.up.as_pos_delta) ∧ s' ≠ new_game) ∨
        (err ≠ "" ∧ s' = new_game)) :=
  claim_C3 new_game 0 Dir.up (by decide) (by decide)

/-- C4: the claim says the boolean returned by a successful `move` is true iff
the destination row is the mover's goal row.  The code does the opposite: a
winning move by player 0 into row `BOARD_SIZE - 1` returns `(false, "")`,
while an ordinary non-winning move returns `(true, "")`.  This theorem
evaluates both failing inputs. -/
theorem claim_C4 :
    (move nearWinState 0 Dir.up).map (fun r => (r.2.1, r.2.2, (r.1.player 0).pos)) =
        some (false, "", (⟨8, 3⟩ : Pos)) ∧
      (move new_game 0 Dir.up).map (fun r => (r.2.1, r.2.2)) = some (true, "") := by
  constructor <;> decide

/-- C5: the claim says a `wallPlace` call by a player whose wall balance is
zero fails first with `InsufficientWalls`.  The code has no balance check at
all (`wall_place_composite` does not even take a player index): with player
0's balance at zero the call still succeeds with an empty error and the
balance stays zero.  This theorem evaluates that failing input. -/
theorem claim_C5 :
    (wall_place_composite zeroBalanceState ⟨0, 0⟩ Dir.up Dir.right).map
        (fun r => (r.2, (r.1.player 0).wall_balance)) = some ("", 0) := by
  decide

/-- C6: the claim says a successful `wallPlace` decrements the placing
player's wall balance by one, sets both wall segments, and leaves the other
balance and both positions unchanged.  The code sets both segments and leaves
positions unchanged but never decrements any balance: after a successful
placement from the fresh game both balances are still 10, not 9. -/
theorem claim_C6 :
    wall_place_composite new_game ⟨0, 0⟩ Dir.up Dir.right = some (wallState, "") ∧
      (wallState.player 0).wall_balance = 10 ∧
      (wallState.player 1).wall_balance = 10 ∧
      (wallState.player 0).pos = (new_game.player 0).pos ∧
      (wallState.player 1).pos = (new_game.player 1).pos ∧
      wall_exists? wallState ⟨0, 0⟩ Dir.up = some true ∧
      wall_exists? wallState ⟨0, 1⟩ Dir.up = some true :=
  ⟨composite_new_game_eval, by decide, by decide, by decide, by decide, by decide, by decide⟩

/-- C8: for every game state with in-bounds, distinct pawn positions and
every player index, the reachability check returns a boolean (no exception),
and it returns true iff a path of admissible steps — in-bounds, not the
opponent's cell (a fixed obstacle for the whole check), and not walled off —
leads from the player's position to some cell of its goal row
(`BOARD_SIZE - 1` for player 0, `0` for player 1). -/
theorem claim_C8 (s : GameState) (i : Fin 2)
    (h0 : isPositionInbounds ((s.player 0).pos))
    (h1 : isPositionInbounds ((s.player 1).pos))
    (_hne : (s.player 0).pos ≠ (s.player 1).pos) :
    ∃ b, can_player_reach_goal s i = some b ∧
      (b = true ↔ ∃ p, Reaches s ((s.player (1 - i)).pos) ((s.player i).pos) p ∧
        p.row = (if i = 0 then BOARD_SIZE - 1 else 0)) :=
  can_player_reach_goal_spec s i (by fin_cases i <;> assumption)

theorem claim_C8_witness :
    ∃ b, can_player_reach_goal new_game 0 = some b ∧
      (b = true ↔ ∃ p, Reaches new_game ((new_game.player (1 - 0)).pos)
        ((new_game.player 0).pos) p ∧
        p.row = (if (0 : Fin 2) = 0 then BOARD_SIZE - 1 else 0)) :=
  claim_C8 new_game 0 (by decide) (by decide) (by decide)

/-- C9: whenever `wall_place_composite` reaches its two placement calls — the
canonical index is valid, `extends` is orthogonal to the canonical edge, the
extension cell is in bounds, and the overlap pre-check found both canonical
slots empty — both low-level placements succeed, so the fatal duplicate-bit
assert of `Edges.set` (and the canonical-index error) is unreachable, on the
trial copy and on the live commit alike (the same computation in this pure
embedding).  This relies on the constructor shape invariant `GameState.WF`. -/
theorem claim_C9 (s : GameState) (hWF : s.WF) (cell : Pos) (edge exts : Dir)
    (cc : Pos) (oc : Orient)
    (hc : wallCanonicalIndex? cell edge = some (cc, oc))
    (ho1 : oc = Orient.up → exts = Dir.left ∨ exts = Dir.right)
    (ho2 : oc = Orient.right → exts = Dir.up ∨ exts = Dir.down)
    (hinb : isPositionInbounds (cc + exts.as_pos_delta))
    (h1 : wall_exists? s cc oc.toDir = some false)
    (h2 : wall_exists? s (cc + exts.as_pos_delta) oc.toDir = some false) :
    ∃ t1 t2, wall_place s cc oc.toDir = Except.ok t1 ∧
      wall_place t1 (cc + exts.as_pos_delta) oc.toDir = Except.ok t2 := by
  obtain ⟨hshift, hvalid⟩ := wallCanonicalIndex?_eq cell edge cc oc hc
  have hvalE := canonicalValid_extends cc oc exts hvalid ho1 ho2 hinb
  obtain ⟨t1, t2, hq1, hq2, -, -⟩ := two_places_ok s hWF cc (cc + exts.as_pos_delta) oc
    hvalid hvalE (Ne.symm (pos_add_delta_ne cc exts)) h1 h2
  exact ⟨t1, t2, hq1, hq2⟩

theorem claim_C9_witness :
    ∃ t1 t2, wall_place new_game ⟨0, 0⟩ Orient.up.toDir = Except.ok t1 ∧
      wall_place t1 ((⟨0, 0⟩ : Pos) + Dir.right.as_pos_delta) Orient.up.toDir = Except.ok t2 :=
  claim_C9 new_game (by decide) ⟨0, 0⟩ Dir.up Dir.right ⟨0, 0⟩ Orient.up
    (by decide) (by decide) (by decide) (by decide) (by decide) (by decide)

/-- C10: for every game state whose two pawns are in bounds, `move` returns a
result normally and never raises: the destination in-bounds check runs before
the wall query, so the out-of-range canonical-index error is unreachable from
`move`. -/
theorem claim_C10 (s : GameState) (i : Fin 2) (d : Dir)
    (h0 : isPositionInbounds ((s.player 0).pos))
    (h1 : isPositionInbounds ((s.player 1).pos)) :
    (move s i d).isSome :=
  move_isSome s i d h0 h1

theorem claim_C10_witness : (move new_game 0 Dir.up).isSome :=
  claim_C10 new_game 0 Dir.up (by decide) (by decide)

/-- C1: for every game state reachable from `new_game` by any finite sequence
of `move` calls and successful `wall_place_composite` calls, after each wall
commit both player 0 and player 1 have at least one path of legal single-step
moves through the resulting wall grid to their own goal row (`BOARD_SIZE - 1`
for player 0, `0` for player 1). -/
theorem claim_C1 (s s' : GameState) (cell : Pos) (edge exts : Dir)
    (hs : ReachableState s)
    (h : wall_place_composite s cell edge exts = some (s', "")) :
    (∃ p, Reaches s' ((s'.player 1).pos) ((s'.player 0).pos) p ∧
        p.row = BOARD_SIZE - 1) ∧
      (∃ p, Reaches s' ((s'.player 0).pos) ((s'.player 1).pos) p ∧ p.row = 0) := by
  obtain ⟨hinb0, hinb1, -⟩ := reachable_invariant s hs
  have hpl := wall_place_composite_players s cell edge exts s' h
  have h0 : s'.player 0 = s.player 0 := by simp [GameState.player, hpl]
  have h1 : s'.player 1 = s.player 1 := by simp [GameState.player, hpl]
  obtain ⟨cc, oc, -, -, -, -, -, -, t1, -, -, hr0, hr1⟩ :=
    wall_place_composite_success s cell edge exts s' h
  constructor
  · obtain ⟨b, hb, hiff⟩ := can_player_reach_goal_spec s' 0 (by rw [h0]; exact hinb0)
    rw [hr0] at hb
    have hbt : b = true := (Option.some.inj hb).symm
    have e1 : ((1 : Fin 2) - 0) = (1 : Fin 2) := rfl
    have e2 : (if (0 : Fin 2) = 0 then BOARD_SIZE - 1 else 0) = BOARD_SIZE - 1 := rfl
    rw [e1, e2] at hiff
    exact hiff.mp hbt
  · obtain ⟨b, hb, hiff⟩ := can_player_reach_goal_spec s' 1 (by rw [h1]; exact hinb1)
    rw [hr1] at hb
    have hbt : b = true := (Option.some.inj hb).symm
    have e1 : ((1 : Fin 2) - 1) = (0 : Fin 2) := rfl
    have e2 : (if (1 : Fin 2) = 0 then BOARD_SIZE - 1 else 0) = (0 : Int) := rfl
    rw [e1, e2] at hiff
    exact hiff.mp hbt

theorem claim_C1_witness :
    (∃ p, Reaches wallState ((wallState.player 1).pos) ((wallState.player 0).pos) p ∧
        p.row = BOARD_SIZE - 1) ∧
      (∃ p, Reaches wallState ((wallState.player 0).pos) ((wallState.player 1).pos) p ∧
        p.row = 0) :=
  claim_C1 new_game wallState ⟨0, 0⟩ Dir.up Dir.right ReachableState.init
    composite_new_game_eval

/-- C7: canonicalization maps `(pos, UP)` and `(pos, RIGHT)` to themselves,
`(pos, DOWN)` to `(pos + delta(DOWN), UP)` and `(pos, LEFT)` to
`(pos + delta(LEFT), RIGHT)`; consequently the two equivalent descriptions of
one physical wall denote the same storage slot, and placing the same physical
wall a second time through `wall_place_composite`, via either equivalent
description (and any orthogonal in-bounds extension), is rejected with the
overlap error, the state staying untouched. -/
theorem claim_C7 :
    (∀ p : Pos, wallCanonicalShift p Dir.up = (p, Orient.up)) ∧
    (∀ p : Pos, wallCanonicalShift p Dir.right = (p, Orient.right)) ∧
    (∀ p : Pos, wallCanonicalShift p Dir.down = (p + Dir.down.as_pos_delta, Orient.up)) ∧
    (∀ p : Pos, wallCanonicalShift p Dir.left = (p + Dir.left.as_pos_delta, Orient.right)) ∧
    (∀ s s' : GameState, ∀ c c2 : Pos, ∀ e e2 x x2 : Dir,
      s.WF → wall_place_composite s c e x = some (s', "") →
      wallCanonicalShift c2 e2 = wallCanonicalShift c e →
      ((wallCanonicalShift c e).2 = Orient.up → x2 = Dir.left ∨ x2 = Dir.right) →
      ((wallCanonicalShift c e).2 = Orient.right → x2 = Dir.up ∨ x2 = Dir.down) →
      isPositionInbounds ((wallCanonicalShift c e).1 + x2.as_pos_delta) →
      wall_place_composite s' c2 e2 x2 = some (s', overlapMsg)) := by
  refine ⟨fun p => rfl, fun p => rfl, fun p => rfl, fun p => rfl, ?_⟩
  intro s s' c c2 e e2 x x2 hWF h hsh ho1 ho2 hix
  obtain ⟨cc, oc, hcanon, hx1, hx2, hinbE, hw1, hw2, t1, hp1, hp2, hr0, hr1⟩ :=
    wall_place_composite_success s c e x s' h
  obtain ⟨hshift_ce, hvalid⟩ := wallCanonicalIndex?_eq c e cc oc hcanon
  have hsnd : (wallCanonicalShift c e).2 = oc := by rw [hshift_ce]
  have hfst : (wallCanonicalShift c e).1 = cc := by rw [hshift_ce]
  rw [hsnd] at ho1 ho2
  rw [hfst] at hix
  have hvalE := canonicalValid_extends cc oc x hvalid hx1 hx2 hinbE
  obtain ⟨u1, u2, hq1, hq2, hgt1, hgt2⟩ := two_places_ok s hWF cc
    (cc + x.as_pos_delta) oc hvalid hvalE (Ne.symm (pos_add_delta_ne cc x)) hw1 hw2
  have ht1 : u1 = t1 := Except.ok.inj (hq1.symm.trans hp1)
  subst ht1
  have hs' : u2 = s' := Except.ok.inj (hq2.symm.trans hp2)
  subst hs'
  have hcanon2 : wallCanonicalIndex? c2 e2 = some (cc, oc) := by
    unfold wallCanonicalIndex?
    dsimp only
    rw [hsh, hshift_ce]
    exact if_pos hvalid
  unfold wall_place_composite
  rw [hcanon2]
  dsimp only
  cases oc
  · simp only [Orient.toDir] at hgt1
    rcases ho1 rfl with hx2' | hx2' <;> subst hx2' <;>
      · rw [if_neg (by decide), if_neg (by decide), if_neg (not_not_intro hix)]
        simp only [Orient.toDir]
        rw [hgt1]
  · simp only [Orient.toDir] at hgt1
    rcases ho2 rfl with hx2' | hx2' <;> subst hx2' <;>
      · rw [if_neg (by decide), if_neg (by decide), if_neg (not_not_intro hix)]
        simp only [Orient.toDir]
        rw [hgt1]

theorem claim_C7_witness :
    wall_place_composite wallState ⟨1, 0⟩ Dir.down Dir.right = some (wallState, overlapMsg) :=
  claim_C7.2.2.2.2 new_game wallState ⟨0, 0⟩ ⟨1, 0⟩ Dir.up Dir.down Dir.right Dir.right
    (by decide) composite_new_game_eval (by decide) (by decide) (by decide) (by decide)

end Quoridor
